import Mathlib

/-
  Verification of the Connect-4 engine (`src/connect4.py`) against its
  design specification.

  The Python source is shallowly embedded: boards are lists of rows of
  cells (row 0 is the top row, as in the source), the mutable
  transposition table is threaded explicitly as an association list, and
  the call to `random.choice` is modelled by an explicit choice oracle
  passed to the search.  Scores are integers extended with the two
  infinities (`float('inf')` / `-float('inf')` in the source).
-/

set_option maxHeartbeats 2000000

namespace Connect4

/-- A cell of the board: `'_'`, `'O'` (human) or `'X'` (AI) in the source. -/
inductive Cell where
  | empty : Cell
  | playerO : Cell
  | aiX : Cell
deriving DecidableEq, Fintype

/-- Source constant `EMPTY = '_'`. -/
def EMPTY : Cell := Cell.empty

/-- Source constant `PLAYER = 'O'`. -/
def PLAYER : Cell := Cell.playerO

/-- Source constant `AI = 'X'`. -/
def AI : Cell := Cell.aiX

/-- A board is a list of rows (source: 6 rows of 7 cells, row 0 on top). -/
abbrev Board := List (List Cell)

/-- A well-formed board has 6 rows of 7 cells each. -/
def WF (b : Board) : Prop := b.length = 6 ∧ ∀ r ∈ b, r.length = 7

instance : DecidablePred WF := fun b => by unfold WF; infer_instance

/-- Reading `board[r][c]`; out-of-range reads (never performed by the
    embedded source functions on 6x7 boards) default to `EMPTY`. -/
def getCell (b : Board) (r c : Nat) : Cell := (b.getD r []).getD c EMPTY

/-- Source `is_valid`: `col >= 0 and col <= 6 and board[0][col] == EMPTY`
    (the `col >= 0` conjunct is trivial for `Nat`). -/
def is_valid (b : Board) (col : Nat) : Bool :=
  decide (col ≤ 6) && decide (getCell b 0 col = EMPTY)

/-- Source `get_next_open_row`: scan rows 5,4,...,0 and return the first
    row whose cell in `col` is empty (`None` when the column is full). -/
def get_next_open_row (b : Board) (col : Nat) : Option Nat :=
  ((List.range 6).reverse).find? (fun row => decide (getCell b row col = EMPTY))

/-- Source `set_piece`: `board[row][col] = piece`, as a pure update. -/
def set_piece (b : Board) (row col : Nat) (piece : Cell) : Board :=
  b.set row ((b.getD row []).set col piece)

/-- Source `winning_move`: scan all horizontal, vertical and (both)
    diagonal windows of four cells for four cells equal to `piece`.
    The fourth scan is `for r in range(3, ROWS)`, i.e. rows 3, 4, 5. -/
def winning_move (b : Board) (piece : Cell) : Bool :=
  ((List.range 4).any fun c => (List.range 6).any fun r =>
    (List.range 4).all fun i => decide (getCell b r (c + i) = piece)) ||
  ((List.range 7).any fun c => (List.range 3).any fun r =>
    (List.range 4).all fun i => decide (getCell b (r + i) c = piece)) ||
  ((List.range 4).any fun c => (List.range 3).any fun r =>
    (List.range 4).all fun i => decide (getCell b (r + i) (c + i) = piece)) ||
  ((List.range 4).any fun c => ([3, 4, 5] : List Nat).any fun r =>
    (List.range 4).all fun i => decide (getCell b (r - i) (c + i) = piece))

/-- Source `get_valid_locations`: the valid columns, in ascending order. -/
def get_valid_locations (b : Board) : List Nat :=
  (List.range 7).filter (fun col => is_valid b col)

/-- Source `is_terminal`: a win for either side, or no valid column left. -/
def is_terminal (b : Board) : Bool :=
  winning_move b PLAYER || winning_move b AI ||
    decide ((get_valid_locations b).length = 0)

/-- Source `evaluation`: score one window of four cells for `piece`. -/
def evaluation (window : List Cell) (piece : Cell) : Int :=
  let opp_piece := if piece = AI then PLAYER else AI
  (if window.count piece = 4 then (100 : Int)
   else if window.count piece = 3 ∧ window.count EMPTY = 1 then 10
   else if window.count piece = 2 ∧ window.count EMPTY = 2 then 4
   else 0) +
  (if window.count opp_piece = 3 ∧ window.count EMPTY = 1 then -8 else 0)

/-- Source `score_position`: 6 points per `piece` in the center column,
    plus `evaluation` summed over every horizontal, vertical and diagonal
    4-cell window, in the source's iteration order. -/
def score_position (b : Board) (piece : Cell) : Int :=
  (((List.range 6).map fun i => getCell b i 3).count piece : Int) * 6 +
  ((List.range 6).map fun r =>
    ((List.range 4).map fun c =>
      evaluation [getCell b r c, getCell b r (c+1), getCell b r (c+2),
        getCell b r (c+3)] piece).sum).sum +
  ((List.range 7).map fun c =>
    ((List.range 3).map fun r =>
      evaluation [getCell b r c, getCell b (r+1) c, getCell b (r+2) c,
        getCell b (r+3) c] piece).sum).sum +
  ((List.range 3).map fun r =>
    ((List.range 4).map fun c =>
      evaluation [getCell b r c, getCell b (r+1) (c+1), getCell b (r+2) (c+2),
        getCell b (r+3) (c+3)] piece).sum).sum +
  ((List.range 3).map fun r =>
    ((List.range 4).map fun c =>
      evaluation [getCell b (r+3) c, getCell b (r+2) (c+1), getCell b (r+1) (c+2),
        getCell b r (c+3)] piece).sum).sum

/-- Scores: the source uses floats only to obtain the sentinels
    `float('inf')` and `-float('inf')`; every other score is an integer. -/
inductive Score where
  | negInf : Score
  | val : Int → Score
  | posInf : Score
deriving DecidableEq

/-- Strict comparison on scores (`<` of the source's floats). -/
def Score.blt : Score → Score → Bool
  | Score.negInf, Score.negInf => false
  | Score.negInf, _ => true
  | Score.val _, Score.negInf => false
  | Score.val a, Score.val b => decide (a < b)
  | Score.val _, Score.posInf => true
  | Score.posInf, _ => false

/-- Non-strict comparison on scores (`<=` / `>=` of the source's floats). -/
def Score.ble (a b : Score) : Bool := !(Score.blt b a)

/-- Python `max` on scores. -/
def Score.smax (a b : Score) : Score := if Score.blt a b then b else a

/-- Python `min` on scores. -/
def Score.smin (a b : Score) : Score := if Score.blt b a then b else a

/-- The transposition table.  `hash_board` serializes the 42 board cells
    followed by the decimal depth, which on 6x7 boards is an injective
    encoding of the pair (board contents, depth); the key is therefore
    modelled as that pair.  Insertion is Python dict assignment. -/
abbrev Table := List ((Board × Nat) × (Option Nat × Score))

/-- Dictionary lookup `transposition_table[hash_board(board, depth)]`. -/
def lookupTT (tt : Table) (b : Board) (d : Nat) : Option (Option Nat × Score) :=
  match tt with
  | [] => none
  | e :: rest => if e.1 = (b, d) then some e.2 else lookupTT rest b d

/-- Dictionary assignment `transposition_table[hash_board(board, depth)] = v`. -/
def insertTT (tt : Table) (b : Board) (d : Nat) (v : Option Nat × Score) : Table :=
  ((b, d), v) :: tt

/-- The sort key `abs(COLS // 2 - c)` used for center-first move ordering. -/
def centerKey (c : Nat) : Nat := ((3 : Int) - (c : Int)).natAbs

/-- Stable insertion used by `sortValid` (keeps earlier elements of equal
    key in front, as Python's stable `list.sort` does). -/
def insertSorted (x : Nat) : List Nat → List Nat
  | [] => [x]
  | y :: ys => if centerKey y ≤ centerKey x then y :: insertSorted x ys
               else x :: y :: ys

/-- Source `valid_locations.sort(key=lambda c: abs(COLS // 2 - c))`:
    a stable ascending sort by `centerKey` (insertion sort here; Python's
    sort is also stable, so the results coincide). -/
def sortValid (l : List Nat) : List Nat :=
  l.foldl (fun acc c => insertSorted c acc) []

/-- One iteration chain of the maximizing `for col in valid_locations`
    loop of `minimax`, including the `alpha >= beta` break.  `recCall` is
    the recursive search at the next depth with `maximizingPlayer=False`.
    State: remaining columns, current `column`, `value`, `alpha`, table. -/
def maxLoop (recCall : Board → Score → Score → Table → ((Option Nat × Score) × Table))
    (b : Board) (beta : Score) :
    List Nat → Nat → Score → Score → Table → ((Nat × Score) × Table)
  | [], column, value, _alpha, tt => ((column, value), tt)
  | col :: rest, column, value, alpha, tt =>
    let row := (get_next_open_row b col).getD 0
    let temp_board := set_piece b row col AI
    let res := recCall temp_board alpha beta tt
    let new_score := res.1.2
    let value' := if Score.blt value new_score then new_score else value
    let column' := if Score.blt value new_score then col else column
    let alpha' := Score.smax alpha value'
    if Score.ble beta alpha' then ((column', value'), res.2)
    else maxLoop recCall b beta rest column' value' alpha' res.2

/-- The minimizing loop of `minimax` (plays `PLAYER`, tracks `beta`). -/
def minLoop (recCall : Board → Score → Score → Table → ((Option Nat × Score) × Table))
    (b : Board) (alpha : Score) :
    List Nat → Nat → Score → Score → Table → ((Nat × Score) × Table)
  | [], column, value, _beta, tt => ((column, value), tt)
  | col :: rest, column, value, beta, tt =>
    let row := (get_next_open_row b col).getD 0
    let temp_board := set_piece b row col PLAYER
    let res := recCall temp_board alpha beta tt
    let new_score := res.1.2
    let value' := if Score.blt new_score value then new_score else value
    let column' := if Score.blt new_score value then col else column
    let beta' := Score.smin beta value'
    if Score.ble beta' alpha then ((column', value'), res.2)
    else minLoop recCall b alpha rest column' value' beta' res.2

/-- Source `minimax` with alpha-beta pruning and the transposition table.
    `choice` models `random.choice` (the source draws a uniformly random
    element of the sorted valid-column list as the initial `column`).
    The structure mirrors the source: cache lookup, center-first sort of
    the valid columns, terminal / depth-0 leaf evaluation, then the
    maximizing or minimizing loop followed by the cache store.
    `temp_board = [r[:] for r in board]` is the identity on immutable
    boards, so `set_piece` is applied directly to a copy of `b`. -/
def minimax (choice : List Nat → Nat) :
    Nat → Board → Score → Score → Bool → Table → ((Option Nat × Score) × Table)
  | 0, b, _alpha, _beta, _maximizing, tt =>
    match lookupTT tt b 0 with
    | some res => (res, tt)
    | none =>
      -- depth == 0, so the leaf branch is taken
      if is_terminal b then
        (if winning_move b AI then ((none, Score.posInf), tt)
         else if winning_move b PLAYER then ((none, Score.negInf), tt)
         else ((none, Score.val 0), tt))
      else ((none, Score.val (score_position b AI)), tt)
  | d + 1, b, alpha, beta, maximizing, tt =>
    match lookupTT tt b (d + 1) with
    | some res => (res, tt)
    | none =>
      let valid := sortValid (get_valid_locations b)
      if is_terminal b then
        (if winning_move b AI then ((none, Score.posInf), tt)
         else if winning_move b PLAYER then ((none, Score.negInf), tt)
         else ((none, Score.val 0), tt))
      else
        if maximizing then
          let r := maxLoop (fun b' a' b'' t' => minimax choice d b' a' b'' false t')
            b beta valid (choice valid) Score.negInf alpha tt
          (((some r.1.1, r.1.2)), insertTT r.2 b (d + 1) (some r.1.1, r.1.2))
        else
          let r := minLoop (fun b' a' b'' t' => minimax choice d b' a' b'' true t')
            b alpha valid (choice valid) Score.posInf beta tt
          (((some r.1.1, r.1.2)), insertTT r.2 b (d + 1) (some r.1.1, r.1.2))

/-- A deterministic stand-in for one draw of `random.choice`: the first
    element of the (non-empty) list. -/
def chooseFirst (l : List Nat) : Nat := l.headD 0

/-- Another possible draw of `random.choice`: the last element. -/
def chooseLast (l : List Nat) : Nat := l.getLastD 0

/-- Source `OPENING_BOOK = [3, 2, 4, 1, 5, 0, 6]`. -/
def OPENING_BOOK : List Nat := [3, 2, 4, 1, 5, 0, 6]

/-- Source `sum(row.count(AI) + row.count(PLAYER) for row in board)`. -/
def pieceCount (b : Board) : Nat :=
  (b.map fun row => row.count AI + row.count PLAYER).sum

/-- Source `get_ai_move`: opening book for the first two plies, otherwise
    `minimax` at depth 7 with the full window.  The Python `for col in
    OPENING_BOOK: if is_valid(board, col): return col` is `List.find?`. -/
def get_ai_move (choice : List Nat → Nat) (b : Board) (tt : Table) :
    Option Nat × Table :=
  match (if pieceCount b < 2
         then OPENING_BOOK.find? (fun col => is_valid b col) else none) with
  | some col => (some col, tt)
  | none =>
    let r := minimax choice 7 b Score.negInf Score.posInf true tt
    (r.1.1, r.2)

/-- The keys/scores view of a table: the stored column of an entry is
    forgotten, the keys, their order and the stored scores are kept. -/
def tblScores (tt : Table) : List ((Board × Nat) × Score) :=
  tt.map fun e => (e.1, e.2.2)

/-- Invariant of every table the search can build: entries are stored only
    by the move loops, i.e. at positive depth for non-terminal boards. -/
def TableInv (tt : Table) : Prop :=
  ∀ e ∈ tt, 0 < e.1.2 ∧ is_terminal e.1.1 = false

/-- Modelled from the spec (section 4.3): the list of all 4-cell windows —
    every horizontal 4-window in every row, every vertical 4-window in
    every column, and every window along both diagonal directions —
    each given by its four cell coordinates. -/
def specWindows : List (List (Nat × Nat)) :=
  ((List.range 6).flatMap fun r => (List.range 4).map fun c =>
    [(r, c), (r, c+1), (r, c+2), (r, c+3)]) ++
  ((List.range 7).flatMap fun c => (List.range 3).map fun r =>
    [(r, c), (r+1, c), (r+2, c), (r+3, c)]) ++
  ((List.range 3).flatMap fun r => (List.range 4).map fun c =>
    [(r, c), (r+1, c+1), (r+2, c+2), (r+3, c+3)]) ++
  ((List.range 3).flatMap fun r => (List.range 4).map fun c =>
    [(r+3, c), (r+2, c+1), (r+1, c+2), (r, c+3)])

/-- Modelled from the spec (section 4.3): `scorePosition(board, piece)`
    sums the window evaluation over every 4-cell window, plus a fixed
    bonus of +6 per occurrence of `piece` in the center column (index 3). -/
def scorePositionSpec (b : Board) (piece : Cell) : Int :=
  (specWindows.map fun w =>
    evaluation (w.map fun q => getCell b q.1 q.2) piece).sum +
  6 * (((List.range 6).map fun r => getCell b r 3).count piece : Int)

/-- One cell of a board pair related by "unchanged, or empty filled with
    `p`" — the per-cell effect of adding one piece of color `p`. -/
def CellRel (p x y : Cell) : Prop := y = x ∨ (x = EMPTY ∧ y = p)

instance (p x y : Cell) : Decidable (CellRel p x y) := by
  unfold CellRel; infer_instance

/-- Modelled from the claim: the 180-degree rotation of a 6x7 board,
    reversing both the row order and the column order. -/
def rotate180 (b : Board) : Board :=
  (List.range 6).map fun r => (List.range 7).map fun c =>
    getCell b (5 - r) (6 - c)

/-- A heap of boards, modelling Python's mutable board lists: an index
    into the heap is a reference to a board, `[r[:] for r in board]`
    allocates a fresh board at the end of the heap, and `set_piece`
    mutates the referenced board in place. -/
abbrev Heap := List Board

/-- In-place `set_piece` on the board referenced by `i`. -/
def set_pieceH (h : Heap) (i row col : Nat) (piece : Cell) : Heap :=
  h.set i (set_piece (h.getD i []) row col piece)

/-- The maximizing loop of `minimax` at the heap level: each iteration
    allocates a fresh copy of the board referenced by `bid`, mutates only
    that fresh copy, and recurses on the copy's reference. -/
def maxLoopH
    (recCall : Nat → Score → Score → Table → Heap → ((Option Nat × Score) × Table × Heap))
    (bid : Nat) (beta : Score) :
    List Nat → Nat → Score → Score → Table → Heap → ((Nat × Score) × Table × Heap)
  | [], column, value, _alpha, tt, h => ((column, value), tt, h)
  | col :: rest, column, value, alpha, tt, h =>
    let row := (get_next_open_row (h.getD bid []) col).getD 0
    let h1 := h ++ [h.getD bid []]
    let h2 := set_pieceH h1 h.length row col AI
    let res := recCall h.length alpha beta tt h2
    let new_score := res.1.2
    let value' := if Score.blt value new_score then new_score else value
    let column' := if Score.blt value new_score then col else column
    let alpha' := Score.smax alpha value'
    if Score.ble beta alpha' then ((column', value'), res.2)
    else maxLoopH recCall bid beta rest column' value' alpha' res.2.1 res.2.2

/-- The minimizing loop of `minimax` at the heap level. -/
def minLoopH
    (recCall : Nat → Score → Score → Table → Heap → ((Option Nat × Score) × Table × Heap))
    (bid : Nat) (alpha : Score) :
    List Nat → Nat → Score → Score → Table → Heap → ((Nat × Score) × Table × Heap)
  | [], column, value, _beta, tt, h => ((column, value), tt, h)
  | col :: rest, column, value, beta, tt, h =>
    let row := (get_next_open_row (h.getD bid []) col).getD 0
    let h1 := h ++ [h.getD bid []]
    let h2 := set_pieceH h1 h.length row col PLAYER
    let res := recCall h.length alpha beta tt h2
    let new_score := res.1.2
    let value' := if Score.blt new_score value then new_score else value
    let column' := if Score.blt new_score value then col else column
    let beta' := Score.smin beta value'
    if Score.ble beta' alpha then ((column', value'), res.2)
    else minLoopH recCall bid alpha rest column' value' beta' res.2.1 res.2.2

/-- Source `minimax` at the heap level: the board argument is a reference
    (heap index) to a mutable board; every placement happens on a freshly
    allocated copy, exactly as `temp_board = [r[:] for r in board]` does. -/
def minimaxH (choice : List Nat → Nat) :
    Nat → Nat → Score → Score → Bool → Table → Heap →
      ((Option Nat × Score) × Table × Heap)
  | 0, bid, _alpha, _beta, _maximizing, tt, h =>
    let b := h.getD bid []
    (match lookupTT tt b 0 with
    | some res => (res, tt, h)
    | none =>
      if is_terminal b then
        (if winning_move b AI then ((none, Score.posInf), tt, h)
         else if winning_move b PLAYER then ((none, Score.negInf), tt, h)
         else ((none, Score.val 0), tt, h))
      else ((none, Score.val (score_position b AI)), tt, h))
  | d + 1, bid, alpha, beta, maximizing, tt, h =>
    let b := h.getD bid []
    (match lookupTT tt b (d + 1) with
    | some res => (res, tt, h)
    | none =>
      let valid := sortValid (get_valid_locations b)
      if is_terminal b then
        (if winning_move b AI then ((none, Score.posInf), tt, h)
         else if winning_move b PLAYER then ((none, Score.negInf), tt, h)
         else ((none, Score.val 0), tt, h))
      else
        if maximizing then
          let r := maxLoopH
            (fun bid' a' b'' t' h' => minimaxH choice d bid' a' b'' false t' h')
            bid beta valid (choice valid) Score.negInf alpha tt h
          ((some r.1.1, r.1.2), insertTT r.2.1 b (d + 1) (some r.1.1, r.1.2), r.2.2)
        else
          let r := minLoopH
            (fun bid' a' b'' t' h' => minimaxH choice d bid' a' b'' true t' h')
            bid alpha valid (choice valid) Score.posInf beta tt h
          ((some r.1.1, r.1.2), insertTT r.2.1 b (d + 1) (some r.1.1, r.1.2), r.2.2))

/-- Heap extension: the new heap keeps every pre-existing board unchanged
    (growth happens only past the old length). -/
def HExt (h h' : Heap) : Prop :=
  h.length ≤ h'.length ∧ ∀ j < h.length, h'.getD j [] = h.getD j []

/-- The all-empty starting board produced by `create_board`. -/
def emptyBoard : Board := List.replicate 6 (List.replicate 7 EMPTY)

/-- A concrete non-terminal position used to exhibit the cache/pruning
    interaction of the search (columns 1, 4 and 5 open). -/
def exBoardC1 : Board :=
  [[PLAYER, EMPTY, PLAYER, PLAYER, EMPTY, EMPTY, PLAYER],
   [PLAYER, AI, AI, AI, EMPTY, EMPTY, AI],
   [PLAYER, AI, PLAYER, PLAYER, EMPTY, EMPTY, PLAYER],
   [AI, PLAYER, AI, AI, PLAYER, EMPTY, PLAYER],
   [AI, AI, AI, PLAYER, PLAYER, EMPTY, AI],
   [PLAYER, PLAYER, PLAYER, AI, AI, PLAYER, AI]]

/-- A concrete non-terminal position in which the human side threatens to
    win in both open columns (2 and 4), so every AI reply scores -inf. -/
def exBoardC6 : Board :=
  [[PLAYER, AI, EMPTY, AI, EMPTY, PLAYER, PLAYER],
   [AI, PLAYER, EMPTY, AI, EMPTY, AI, AI],
   [PLAYER, PLAYER, EMPTY, AI, EMPTY, PLAYER, PLAYER],
   [PLAYER, AI, PLAYER, PLAYER, PLAYER, AI, PLAYER],
   [PLAYER, PLAYER, PLAYER, AI, PLAYER, PLAYER, PLAYER],
   [AI, AI, PLAYER, AI, PLAYER, AI, AI]]

/-- A concrete completely full drawn board (no four-in-a-row for either
    side, no valid column). -/
def exBoardDraw : Board :=
  [[PLAYER, PLAYER, PLAYER, AI, AI, AI, PLAYER],
   [AI, AI, AI, PLAYER, PLAYER, PLAYER, AI],
   [AI, AI, AI, PLAYER, PLAYER, PLAYER, AI],
   [PLAYER, PLAYER, PLAYER, AI, AI, AI, PLAYER],
   [AI, AI, AI, PLAYER, PLAYER, PLAYER, AI],
   [AI, AI, AI, PLAYER, PLAYER, PLAYER, AI]]

/-- A concrete completely full board containing a horizontal AI
    four-in-a-row (row 3, columns 0-3) and no human four-in-a-row. -/
def exBoardFullWin : Board :=
  [[PLAYER, AI, PLAYER, AI, PLAYER, AI, PLAYER],
   [AI, PLAYER, AI, PLAYER, AI, PLAYER, AI],
   [PLAYER, AI, PLAYER, AI, PLAYER, AI, PLAYER],
   [AI, AI, AI, AI, PLAYER, AI, PLAYER],
   [PLAYER, PLAYER, AI, PLAYER, AI, PLAYER, AI],
   [AI, PLAYER, PLAYER, AI, PLAYER, AI, PLAYER]]

/-- A concrete table holding one stored entry, used to exercise the cache. -/
def exTableC10 : Table := [((exBoardDraw, 1), (some 2, Score.val 5))]

/-- Modelled from the spec: the "full unpruned minimax score for the same
    board/depth/side" (spec section 8), i.e. plain depth-limited minimax with
    no alpha-beta pruning and no position cache, with the same leaf
    evaluation as the source's `minimax`. -/
def plainMinimax : Nat → Board → Bool → Score
  | 0, b, _ =>
    if is_terminal b then
      (if winning_move b AI then Score.posInf
       else if winning_move b PLAYER then Score.negInf
       else Score.val 0)
    else Score.val (score_position b AI)
  | d + 1, b, maximizing =>
    if is_terminal b then
      (if winning_move b AI then Score.posInf
       else if winning_move b PLAYER then Score.negInf
       else Score.val 0)
    else
      let children := (get_valid_locations b).map fun col =>
        plainMinimax d
          (set_piece b ((get_next_open_row b col).getD 0) col
            (if maximizing then AI else PLAYER))
          (!maximizing)
      if maximizing then children.foldl Score.smax Score.negInf
      else children.foldl Score.smin Score.posInf

/-! ## Shared lemmas about the table and the leaf evaluation -/

/-- Tables produced by the search never hold an entry whose key has depth
    zero or a terminal board, so such lookups always miss. -/
theorem lookupTT_none_of_inv {tt : Table} (hinv : TableInv tt) {b : Board} {d : Nat}
    (h : d = 0 ∨ is_terminal b = true) : lookupTT tt b d = none := by
  induction tt with
  | nil => rfl
  | cons e rest ih =>
    simp only [lookupTT]
    have hne : ¬ e.1 = (b, d) := by
      intro hkey
      have h1 : 0 < e.1.2 := (hinv e (List.mem_cons_self e rest)).1
      have h2 : is_terminal e.1.1 = false := (hinv e (List.mem_cons_self e rest)).2
      rw [hkey] at h1 h2
      rcases h with h0 | hterm
      · simp only [h0] at h1; omega
      · rw [hterm] at h2; cases h2
    rw [if_neg hne]
    exact ih (fun x hx => hinv x (List.mem_cons_of_mem _ hx))

/-- On a cache miss, a depth-0 or terminal node returns column `none` and
    the score dictated by the leaf branch of `minimax`, stated as the
    specification's four-way case split. -/
theorem minimax_leaf_eq (choice : List Nat → Nat) (d : Nat) (b : Board)
    (alpha beta : Score) (m : Bool) (tt : Table)
    (hmiss : lookupTT tt b d = none) (h : d = 0 ∨ is_terminal b = true) :
    minimax choice d b alpha beta m tt =
      ((none, if winning_move b AI then Score.posInf
              else if winning_move b PLAYER then Score.negInf
              else if get_valid_locations b = [] then Score.val 0
              else Score.val (score_position b AI)), tt) := by
  have hval_of_term : is_terminal b = true → winning_move b AI = false →
      winning_move b PLAYER = false → get_valid_locations b = [] := by
    intro ht hA hP
    simp only [is_terminal, hA, hP, Bool.or_false, Bool.false_or,
      decide_eq_true_eq] at ht
    exact List.length_eq_zero.mp ht
  cases d with
  | zero =>
    simp only [minimax, hmiss]
    by_cases ht : is_terminal b = true
    · rw [if_pos ht]
      by_cases hA : winning_move b AI = true
      · simp [hA]
      · have hA' : winning_move b AI = false := by revert hA; cases winning_move b AI <;> simp
        by_cases hP : winning_move b PLAYER = true
        · simp [hA', hP]
        · have hP' : winning_move b PLAYER = false := by revert hP; cases winning_move b PLAYER <;> simp
          have hv := hval_of_term ht hA' hP'
          simp [hA', hP', hv]
    · have ht' : is_terminal b = false := by revert ht; cases is_terminal b <;> simp
      rw [if_neg (by simp [ht'])]
      have hcomp : winning_move b PLAYER = false ∧ winning_move b AI = false ∧
          (get_valid_locations b).length ≠ 0 := by
        revert ht'
        simp only [is_terminal, Bool.or_eq_false_iff, decide_eq_false_iff_not]
        tauto
      have hne : get_valid_locations b ≠ [] := by
        intro hx; exact hcomp.2.2 (by rw [hx]; rfl)
      simp [hcomp.1, hcomp.2.1, hne]
  | succ n =>
    have ht : is_terminal b = true := by
      rcases h with h0 | ht
      · cases h0
      · exact ht
    simp only [minimax, hmiss]
    rw [if_pos ht]
    by_cases hA : winning_move b AI = true
    · simp [hA]
    · have hA' : winning_move b AI = false := by revert hA; cases winning_move b AI <;> simp
      by_cases hP : winning_move b PLAYER = true
      · simp [hA', hP]
      · have hP' : winning_move b PLAYER = false := by revert hP; cases winning_move b PLAYER <;> simp
        have hv := hval_of_term ht hA' hP'
        simp [hA', hP', hv]

/-- The maximizing loop preserves the table invariant when its recursive
    calls do. -/
theorem maxLoop_inv
    (recCall : Board → Score → Score → Table → ((Option Nat × Score) × Table))
    (hrec : ∀ b' a' b'' tt, TableInv tt → TableInv (recCall b' a' b'' tt).2) :
    ∀ (cols : List Nat) (b : Board) (beta : Score) (col : Nat)
      (value alpha : Score) (tt : Table), TableInv tt →
      TableInv (maxLoop recCall b beta cols col value alpha tt).2 := by
  intro cols
  induction cols with
  | nil => intro b beta col value alpha tt h; exact h
  | cons c rest ih =>
    intro b beta col value alpha tt h
    simp only [maxLoop]
    split <;> split <;>
      first
        | exact hrec _ _ _ _ h
        | exact ih _ _ _ _ _ _ (hrec _ _ _ _ h)

/-- The minimizing loop preserves the table invariant when its recursive
    calls do. -/
theorem minLoop_inv
    (recCall : Board → Score → Score → Table → ((Option Nat × Score) × Table))
    (hrec : ∀ b' a' b'' tt, TableInv tt → TableInv (recCall b' a' b'' tt).2) :
    ∀ (cols : List Nat) (b : Board) (alpha : Score) (col : Nat)
      (value beta : Score) (tt : Table), TableInv tt →
      TableInv (minLoop recCall b alpha cols col value beta tt).2 := by
  intro cols
  induction cols with
  | nil => intro b alpha col value beta tt h; exact h
  | cons c rest ih =>
    intro b alpha col value beta tt h
    simp only [minLoop]
    split <;> split <;>
      first
        | exact hrec _ _ _ _ h
        | exact ih _ _ _ _ _ _ (hrec _ _ _ _ h)

/-- Every table the search builds satisfies `TableInv`: entries are stored
    only at positive depth for non-terminal boards, so the invariant
    assumed by the leaf-evaluation theorems holds at every node the
    search reaches when the cache starts empty. -/
theorem minimax_preserves_tableInv (choice : List Nat → Nat) :
    ∀ (d : Nat) (b : Board) (alpha beta : Score) (m : Bool) (tt : Table),
      TableInv tt → TableInv ((minimax choice d b alpha beta m tt).2) := by
  intro d
  induction d with
  | zero =>
    intro b alpha beta m tt h
    simp only [minimax]
    cases hl : lookupTT tt b 0 with
    | some e => exact h
    | none => split_ifs <;> exact h
  | succ n ih =>
    intro b alpha beta m tt h
    simp only [minimax]
    cases hl : lookupTT tt b (n + 1) with
    | some e => exact h
    | none =>
      split_ifs with ht hA hP hm
      · exact h
      · exact h
      · exact h
      · intro e he
        rcases List.mem_cons.mp he with rfl | htl
        · exact ⟨Nat.succ_pos n, by revert ht; cases is_terminal b <;> simp⟩
        · exact maxLoop_inv _ (fun b' a' b'' tt' => ih b' a' b'' false tt')
            _ _ _ _ _ _ _ h e htl
      · intro e he
        rcases List.mem_cons.mp he with rfl | htl
        · exact ⟨Nat.succ_pos n, by revert ht; cases is_terminal b <;> simp⟩
        · exact minLoop_inv _ (fun b' a' b'' tt' => ih b' a' b'' true tt')
            _ _ _ _ _ _ _ h e htl

/-- C2: at a terminal or depth-0 node, `search` returns column `none` with
    score +inf when the AI side has four-in-a-row, else -inf when the
    opponent has four-in-a-row, else 0 when the board is full, else the
    heuristic score of the board from the fixed AI (maximizing) side's
    perspective — regardless of the side to move `m` at that node. -/
theorem search_leaf_fixed_perspective (choice : List Nat → Nat) (d : Nat) (b : Board)
    (alpha beta : Score) (m : Bool) (tt : Table)
    (hinv : TableInv tt) (h : d = 0 ∨ is_terminal b = true) :
    minimax choice d b alpha beta m tt =
      ((none, if winning_move b AI then Score.posInf
              else if winning_move b PLAYER then Score.negInf
              else if get_valid_locations b = [] then Score.val 0
              else Score.val (score_position b AI)), tt) :=
  minimax_leaf_eq choice d b alpha beta m tt (lookupTT_none_of_inv hinv h) h

/-- Witness for C2 at a concrete input: a full drawn board is terminal and
    `search` returns `(none, 0)` there at depth 3, for either side to move. -/
theorem search_leaf_fixed_perspective_witness :
    TableInv ([] : Table) ∧ is_terminal exBoardDraw = true ∧
    minimax chooseFirst 3 exBoardDraw Score.negInf Score.posInf true [] =
      ((none, Score.val 0), []) := by
  have h := search_leaf_fixed_perspective chooseFirst 3 exBoardDraw
    Score.negInf Score.posInf true [] (by simp [TableInv]) (Or.inr (by decide))
  refine ⟨by simp [TableInv], by decide, ?_⟩
  rw [h]
  decide

/-- C3 (amended): on a board with no valid column, `isTerminal` is true and
    `search` returns `(none, 0)` at every depth provided neither side has a
    four-in-a-row (a full board may still contain a four-in-a-row, in which
    case the terminal branch returns the win score instead). -/
theorem search_no_valid_columns (choice : List Nat → Nat) (d : Nat) (b : Board)
    (alpha beta : Score) (m : Bool) (tt : Table)
    (hinv : TableInv tt) (hval : get_valid_locations b = [])
    (hA : winning_move b AI = false) (hP : winning_move b PLAYER = false) :
    is_terminal b = true ∧
      minimax choice d b alpha beta m tt = ((none, Score.val 0), tt) := by
  have hterm : is_terminal b = true := by simp [is_terminal, hval]
  refine ⟨hterm, ?_⟩
  rw [minimax_leaf_eq choice d b alpha beta m tt
    (lookupTT_none_of_inv hinv (Or.inr hterm)) (Or.inr hterm)]
  simp [hA, hP, hval]

/-- Counterexample to C3 as stated: `exBoardFullWin` has no valid column,
    yet `search` returns `(none, +inf)` on it (the board contains an AI
    four-in-a-row), not `(none, 0)`. -/
theorem search_no_valid_columns_counterexample :
    get_valid_locations exBoardFullWin = [] ∧
    (minimax chooseFirst 0 exBoardFullWin Score.negInf Score.posInf true []).1 =
      (none, Score.posInf) ∧
    (minimax chooseFirst 0 exBoardFullWin Score.negInf Score.posInf true []).1 ≠
      (none, Score.val 0) := by
  refine ⟨by decide, by decide, by decide⟩

/-- Witness for the amended C3 at a concrete input: the full drawn board. -/
theorem search_no_valid_columns_witness :
    get_valid_locations exBoardDraw = [] ∧
    is_terminal exBoardDraw = true ∧
    minimax chooseFirst 2 exBoardDraw Score.negInf Score.posInf true [] =
      ((none, Score.val 0), []) := by
  have h := search_no_valid_columns chooseFirst 2 exBoardDraw
    Score.negInf Score.posInf true [] (by simp [TableInv]) (by decide) (by decide)
    (by decide)
  exact ⟨by decide, h.1, h.2⟩

/-! ## The transposition-table key and entry persistence (C10) -/

/-- The maximizing loop preserves any table entry its recursive calls
    preserve. -/
theorem maxLoop_preserves {bb : Board} {dd : Nat} {v : Option Nat × Score}
    (recCall : Board → Score → Score → Table → ((Option Nat × Score) × Table))
    (hrec : ∀ b' a' b'' tt, lookupTT tt bb dd = some v →
      lookupTT (recCall b' a' b'' tt).2 bb dd = some v) :
    ∀ (cols : List Nat) (b : Board) (beta : Score) (col : Nat)
      (value alpha : Score) (tt : Table), lookupTT tt bb dd = some v →
      lookupTT (maxLoop recCall b beta cols col value alpha tt).2 bb dd = some v := by
  intro cols
  induction cols with
  | nil => intro b beta col value alpha tt h; simpa [maxLoop] using h
  | cons c rest ih =>
    intro b beta col value alpha tt h
    simp only [maxLoop]
    split <;> split <;>
      first
        | exact hrec _ _ _ _ h
        | exact ih _ _ _ _ _ _ (hrec _ _ _ _ h)

/-- The minimizing loop preserves any table entry its recursive calls
    preserve. -/
theorem minLoop_preserves {bb : Board} {dd : Nat} {v : Option Nat × Score}
    (recCall : Board → Score → Score → Table → ((Option Nat × Score) × Table))
    (hrec : ∀ b' a' b'' tt, lookupTT tt bb dd = some v →
      lookupTT (recCall b' a' b'' tt).2 bb dd = some v) :
    ∀ (cols : List Nat) (b : Board) (alpha : Score) (col : Nat)
      (value beta : Score) (tt : Table), lookupTT tt bb dd = some v →
      lookupTT (minLoop recCall b alpha cols col value beta tt).2 bb dd = some v := by
  intro cols
  induction cols with
  | nil => intro b alpha col value beta tt h; simpa [minLoop] using h
  | cons c rest ih =>
    intro b alpha col value beta tt h
    simp only [minLoop]
    split <;> split <;>
      first
        | exact hrec _ _ _ _ h
        | exact ih _ _ _ _ _ _ (hrec _ _ _ _ h)

/-- Once an entry is in the table, every later `minimax` call (on any
    board, depth, window and side) leaves that entry in place: the search
    only inserts at keys on which it has just missed. -/
theorem minimax_preserves_entry (choice : List Nat → Nat) {bb : Board} {dd : Nat}
    {v : Option Nat × Score} :
    ∀ (d : Nat) (b : Board) (alpha beta : Score) (m : Bool) (tt : Table),
      lookupTT tt bb dd = some v →
      lookupTT ((minimax choice d b alpha beta m tt).2) bb dd = some v := by
  intro d
  induction d with
  | zero =>
    intro b alpha beta m tt h
    simp only [minimax]
    cases hl : lookupTT tt b 0 with
    | some e => simpa using h
    | none => split_ifs <;> simpa using h
  | succ n ih =>
    intro b alpha beta m tt h
    simp only [minimax]
    cases hl : lookupTT tt b (n + 1) with
    | some e => simpa using h
    | none =>
      have hne : ¬ ((b, n + 1) : Board × Nat) = (bb, dd) := by
        intro hk
        have hb : bb = b := by rw [Prod.ext_iff] at hk; exact hk.1.symm
        have hd : dd = n + 1 := by rw [Prod.ext_iff] at hk; exact hk.2.symm
        rw [hb, hd, hl] at h
        cases h
      split_ifs with ht hA hP hm
      · simpa using h
      · simpa using h
      · simpa using h
      · simp only [insertTT, lookupTT]
        rw [if_neg hne]
        exact maxLoop_preserves _ (fun b' a' b'' tt' => ih b' a' b'' false tt')
          _ _ _ _ _ _ _ h
      · simp only [insertTT, lookupTT]
        rw [if_neg hne]
        exact minLoop_preserves _ (fun b' a' b'' tt' => ih b' a' b'' true tt')
          _ _ _ _ _ _ _ h

/-- C10: the cache key is exactly (board contents, remaining depth).  A
    stored entry is returned unchanged by any call on the same board and
    depth, for every alpha, beta and side-to-move flag of the later call,
    and any other search leaves the stored entry untouched. -/
theorem cache_key_is_board_and_depth (choice : List Nat → Nat) (b : Board)
    (d : Nat) (v : Option Nat × Score) (tt : Table)
    (h : lookupTT tt b d = some v) :
    (∀ alpha beta m, minimax choice d b alpha beta m tt = (v, tt)) ∧
    (∀ choice' d' b' alpha' beta' m',
      lookupTT ((minimax choice' d' b' alpha' beta' m' tt).2) b d = some v) := by
  constructor
  · intro alpha beta m
    cases d <;> simp [minimax, h]
  · intro choice' d' b' alpha' beta' m'
    exact minimax_preserves_entry choice' d' b' alpha' beta' m' tt h

/-- Witness for C10: a stored entry for `(exBoardDraw, 1)` is returned
    verbatim even with an inverted window and the minimizing flag, and it
    survives a search on a different board. -/
theorem cache_key_is_board_and_depth_witness :
    minimax chooseFirst 1 exBoardDraw Score.posInf Score.negInf false exTableC10 =
      ((some 2, Score.val 5), exTableC10) ∧
    lookupTT ((minimax chooseFirst 1 emptyBoard Score.negInf Score.posInf true
      exTableC10).2) exBoardDraw 1 = some (some 2, Score.val 5) := by
  have h := cache_key_is_board_and_depth chooseFirst exBoardDraw 1
    (some 2, Score.val 5) exTableC10 (by rfl)
  exact ⟨h.1 Score.posInf Score.negInf false,
    h.2 chooseFirst 1 emptyBoard Score.negInf Score.posInf true⟩

/-! ## The opening book (C5) -/

/-- A row whose cells at indices 2 and 3 are both occupied holds at least
    two pieces. -/
theorem row_pieces_ge_two : ∀ a0 a1 a2 a3 a4 a5 a6 : Cell, a2 ≠ EMPTY → a3 ≠ EMPTY →
    2 ≤ ([a0, a1, a2, a3, a4, a5, a6].count AI +
      [a0, a1, a2, a3, a4, a5, a6].count PLAYER) := by
  decide

/-- C5: with fewer than two pieces on the board, `chooseMove` returns the
    first valid column of the opening book `[3, 2, 4, 1, 5, 0, 6]` without
    running the search (the table is returned untouched), and such a column
    always exists. -/
theorem opening_book_move (choice : List Nat → Nat) (b : Board) (tt : Table)
    (hwf : WF b) (h2 : pieceCount b < 2) :
    get_ai_move choice b tt = (OPENING_BOOK.find? (fun col => is_valid b col), tt) ∧
    (OPENING_BOOK.find? (fun col => is_valid b col)).isSome := by
  have hsome : (OPENING_BOOK.find? (fun col => is_valid b col)).isSome := by
    by_contra hno
    rw [Option.not_isSome_iff_eq_none, List.find?_eq_none] at hno
    have hv2 := hno 2 (by decide)
    have hv3 := hno 3 (by decide)
    simp only [is_valid, Bool.and_eq_true, decide_eq_true_eq, not_and] at hv2 hv3
    have hc2 : ¬ getCell b 0 2 = EMPTY := hv2 (by omega)
    have hc3 : ¬ getCell b 0 3 = EMPTY := hv3 (by omega)
    obtain ⟨hlen, hrows⟩ := hwf
    rcases b with _ | ⟨r0, rest⟩
    · simp at hlen
    have h7 : r0.length = 7 := hrows r0 (List.mem_cons_self r0 rest)
    rcases r0 with _ | ⟨a0, r⟩; · simp at h7
    rcases r with _ | ⟨a1, r⟩; · simp at h7
    rcases r with _ | ⟨a2, r⟩; · simp at h7
    rcases r with _ | ⟨a3, r⟩; · simp at h7
    rcases r with _ | ⟨a4, r⟩; · simp at h7
    rcases r with _ | ⟨a5, r⟩; · simp at h7
    rcases r with _ | ⟨a6, r⟩; · simp at h7
    have hr : r = [] := by
      rcases r with _ | ⟨a7, r⟩
      · rfl
      · exfalso; simp only [List.length_cons] at h7; omega
    subst hr
    simp only [getCell, List.getD] at hc2 hc3
    have hge := row_pieces_ge_two a0 a1 a2 a3 a4 a5 a6 (by simpa using hc2)
      (by simpa using hc3)
    simp only [pieceCount, List.map_cons, List.sum_cons] at h2
    omega
  obtain ⟨c, hc⟩ := Option.isSome_iff_exists.mp hsome
  refine ⟨?_, hsome⟩
  simp only [get_ai_move, if_pos h2, hc]

/-- Witness for C5: on the empty board `chooseMove` returns column 3. -/
theorem opening_book_move_witness :
    WF emptyBoard ∧ pieceCount emptyBoard < 2 ∧
    get_ai_move chooseFirst emptyBoard [] = (some 3, []) := by
  have h := opening_book_move chooseFirst emptyBoard [] (by decide) (by decide)
  refine ⟨by decide, by decide, ?_⟩
  rw [h.1]
  rfl

/-! ## Determinism of the returned score (C6) -/

/-- Score-equivalent tables (same keys in the same order, same stored
    scores) agree on lookups up to the stored column. -/
theorem lookupTT_scores_eq {t1 t2 : Table} (h : tblScores t1 = tblScores t2)
    (b : Board) (d : Nat) :
    (lookupTT t1 b d).map (fun e => e.2) =
      (lookupTT t2 b d).map (fun e => e.2) := by
  induction t1 generalizing t2 with
  | nil =>
    cases t2 with
    | nil => rfl
    | cons e r => simp [tblScores] at h
  | cons e1 r1 ih =>
    cases t2 with
    | nil => simp [tblScores] at h
    | cons e2 r2 =>
      simp only [tblScores, List.map_cons, List.cons.injEq] at h
      obtain ⟨hhead, htail⟩ := h
      have hkey : e1.1 = e2.1 := (Prod.ext_iff.mp hhead).1
      have hsc : e1.2.2 = e2.2.2 := (Prod.ext_iff.mp hhead).2
      simp only [lookupTT]
      by_cases hk : e1.1 = (b, d)
      · rw [if_pos hk, if_pos (by rw [← hkey]; exact hk)]
        simp [hsc]
      · rw [if_neg hk, if_neg (by rw [← hkey]; exact hk)]
        exact ih htail

/-- The maximizing loops of two runs over score-equivalent tables track
    the same value and alpha and produce score-equivalent tables, for any
    initial fallback columns. -/
theorem maxLoop_congr
    (r1 r2 : Board → Score → Score → Table → ((Option Nat × Score) × Table))
    (hrec : ∀ b' a' b'' t1 t2, tblScores t1 = tblScores t2 →
      (r1 b' a' b'' t1).1.2 = (r2 b' a' b'' t2).1.2 ∧
      tblScores (r1 b' a' b'' t1).2 = tblScores (r2 b' a' b'' t2).2) :
    ∀ (cols : List Nat) (b : Board) (beta : Score) (col1 col2 : Nat)
      (value alpha : Score) (t1 t2 : Table), tblScores t1 = tblScores t2 →
      (maxLoop r1 b beta cols col1 value alpha t1).1.2 =
        (maxLoop r2 b beta cols col2 value alpha t2).1.2 ∧
      tblScores (maxLoop r1 b beta cols col1 value alpha t1).2 =
        tblScores (maxLoop r2 b beta cols col2 value alpha t2).2 := by
  intro cols
  induction cols with
  | nil => intro b beta col1 col2 value alpha t1 t2 h; exact ⟨rfl, h⟩
  | cons c rest ih =>
    intro b beta col1 col2 value alpha t1 t2 h
    obtain ⟨hs, ht⟩ := hrec (set_piece b ((get_next_open_row b c).getD 0) c AI)
      alpha beta t1 t2 h
    simp only [maxLoop]
    rw [hs]
    constructor
    · split <;> split <;>
        first
          | rfl
          | exact (ih _ _ _ _ _ _ _ _ ht).1
    · split <;> split <;>
        first
          | exact ht
          | exact (ih _ _ _ _ _ _ _ _ ht).2

/-- The minimizing-loop analogue of `maxLoop_congr`. -/
theorem minLoop_congr
    (r1 r2 : Board → Score → Score → Table → ((Option Nat × Score) × Table))
    (hrec : ∀ b' a' b'' t1 t2, tblScores t1 = tblScores t2 →
      (r1 b' a' b'' t1).1.2 = (r2 b' a' b'' t2).1.2 ∧
      tblScores (r1 b' a' b'' t1).2 = tblScores (r2 b' a' b'' t2).2) :
    ∀ (cols : List Nat) (b : Board) (alpha : Score) (col1 col2 : Nat)
      (value beta : Score) (t1 t2 : Table), tblScores t1 = tblScores t2 →
      (minLoop r1 b alpha cols col1 value beta t1).1.2 =
        (minLoop r2 b alpha cols col2 value beta t2).1.2 ∧
      tblScores (minLoop r1 b alpha cols col1 value beta t1).2 =
        tblScores (minLoop r2 b alpha cols col2 value beta t2).2 := by
  intro cols
  induction cols with
  | nil => intro b alpha col1 col2 value beta t1 t2 h; exact ⟨rfl, h⟩
  | cons c rest ih =>
    intro b alpha col1 col2 value beta t1 t2 h
    obtain ⟨hs, ht⟩ := hrec (set_piece b ((get_next_open_row b c).getD 0) c PLAYER)
      alpha beta t1 t2 h
    simp only [minLoop]
    rw [hs]
    constructor
    · split <;> split <;>
        first
          | rfl
          | exact (ih _ _ _ _ _ _ _ _ ht).1
    · split <;> split <;>
        first
          | exact ht
          | exact (ih _ _ _ _ _ _ _ _ ht).2

/-- Inserting an entry extends the score view with the key and the score. -/
theorem tblScores_insertTT (tt : Table) (b : Board) (d : Nat)
    (v : Option Nat × Score) :
    tblScores (insertTT tt b d v) = ((b, d), v.2) :: tblScores tt := rfl

/-- Two `minimax` runs that differ only in the `random.choice` draws (and
    in the stored columns of their tables) return the same score and build
    score-equivalent tables: the choice oracle can only influence the
    returned column, never the score. -/
theorem minimax_congr (c1 c2 : List Nat → Nat) :
    ∀ (d : Nat) (b : Board) (alpha beta : Score) (m : Bool) (t1 t2 : Table),
      tblScores t1 = tblScores t2 →
      (minimax c1 d b alpha beta m t1).1.2 = (minimax c2 d b alpha beta m t2).1.2 ∧
      tblScores (minimax c1 d b alpha beta m t1).2 =
        tblScores (minimax c2 d b alpha beta m t2).2 := by
  intro d
  induction d with
  | zero =>
    intro b alpha beta m t1 t2 h
    have hl := lookupTT_scores_eq h b 0
    simp only [minimax]
    cases h1 : lookupTT t1 b 0 with
    | some e1 =>
      cases h2 : lookupTT t2 b 0 with
      | some e2 =>
        rw [h1, h2] at hl
        simp only [Option.map_some'] at hl
        exact ⟨Option.some.inj hl, h⟩
      | none => rw [h1, h2] at hl; cases hl
    | none =>
      cases h2 : lookupTT t2 b 0 with
      | some e2 => rw [h1, h2] at hl; cases hl
      | none => split_ifs <;> exact ⟨rfl, h⟩
  | succ n ih =>
    intro b alpha beta m t1 t2 h
    have hl := lookupTT_scores_eq h b (n + 1)
    simp only [minimax]
    cases h1 : lookupTT t1 b (n + 1) with
    | some e1 =>
      cases h2 : lookupTT t2 b (n + 1) with
      | some e2 =>
        rw [h1, h2] at hl
        simp only [Option.map_some'] at hl
        exact ⟨Option.some.inj hl, h⟩
      | none => rw [h1, h2] at hl; cases hl
    | none =>
      cases h2 : lookupTT t2 b (n + 1) with
      | some e2 => rw [h1, h2] at hl; cases hl
      | none =>
        by_cases ht : is_terminal b = true
        · rw [if_pos ht, if_pos ht]
          split_ifs <;> exact ⟨rfl, h⟩
        · rw [if_neg ht, if_neg ht]
          cases m with
          | true =>
            have hcong := maxLoop_congr _ _
              (fun b' a' b'' t1' t2' h' => ih b' a' b'' false t1' t2' h')
              (sortValid (get_valid_locations b)) b beta
              (c1 (sortValid (get_valid_locations b)))
              (c2 (sortValid (get_valid_locations b))) Score.negInf alpha t1 t2 h
            refine ⟨hcong.1, ?_⟩
            show tblScores (insertTT _ b (n + 1) _) =
              tblScores (insertTT _ b (n + 1) _)
            simp only [tblScores_insertTT, hcong.1, hcong.2]
          | false =>
            have hcong := minLoop_congr _ _
              (fun b' a' b'' t1' t2' h' => ih b' a' b'' true t1' t2' h')
              (sortValid (get_valid_locations b)) b alpha
              (c1 (sortValid (get_valid_locations b)))
              (c2 (sortValid (get_valid_locations b))) Score.posInf beta t1 t2 h
            refine ⟨hcong.1, ?_⟩
            show tblScores (insertTT _ b (n + 1) _) =
              tblScores (insertTT _ b (n + 1) _)
            simp only [tblScores_insertTT, hcong.1, hcong.2]

/-- C6 (amended): two successive calls of `search(board, depth, -inf,
    +inf, true)` on the same board with the cache cleared before each call
    return the identical score; the returned column, however, comes from
    `random.choice` when no explored move strictly improves the initial
    value, so only the score component is a deterministic function of
    (board, depth). -/
theorem search_score_deterministic (c1 c2 : List Nat → Nat) (b : Board) (d : Nat) :
    ((minimax c1 d b Score.negInf Score.posInf true []).1).2 =
      ((minimax c2 d b Score.negInf Score.posInf true []).1).2 :=
  (minimax_congr c1 c2 d b Score.negInf Score.posInf true [] [] rfl).1

/-- Counterexample to C6 as stated: on `exBoardC6` (every AI move loses at
    once) two runs whose random draws pick different elements of the valid
    list return different columns — the full (column, score) pair is not
    deterministic, only the score is. -/
theorem search_pair_not_deterministic_counterexample :
    (minimax chooseFirst 2 exBoardC6 Score.negInf Score.posInf true []).1 =
      (some 2, Score.negInf) ∧
    (minimax chooseLast 2 exBoardC6 Score.negInf Score.posInf true []).1 =
      (some 4, Score.negInf) ∧
    (minimax chooseFirst 2 exBoardC6 Score.negInf Score.posInf true []).1 ≠
      (minimax chooseLast 2 exBoardC6 Score.negInf Score.posInf true []).1 := by
  refine ⟨by decide, by decide, by decide⟩

/-! ## The heuristic evaluator (C4, C8) -/

/-- The source's `score_position` loop structure equals the flat
    window-list formulation of the specification: helper shared by the
    claims about the evaluator. -/
theorem score_position_eq_spec (b : Board) (piece : Cell) :
    score_position b piece = scorePositionSpec b piece := by
  simp only [score_position, scorePositionSpec, specWindows]
  simp only [show List.range 6 = [0,1,2,3,4,5] from rfl,
    show List.range 7 = [0,1,2,3,4,5,6] from rfl,
    show List.range 4 = [0,1,2,3] from rfl,
    show List.range 3 = [0,1,2] from rfl]
  simp only [List.flatMap_cons, List.flatMap_nil, List.map_cons, List.map_nil,
    List.append_nil, List.nil_append, List.sum_cons, List.sum_nil, List.map_append,
    List.sum_append, List.cons_append, Nat.reduceAdd]
  ring

/-- C4: `scorePosition(board, piece)` equals the sum of the window score
    over every horizontal, vertical and (both directions) diagonal 4-cell
    window, plus 6 per `piece`-cell in the center column — the
    specification's description of the heuristic evaluator. -/
theorem score_position_matches_spec (b : Board) (piece : Cell) :
    score_position b piece = scorePositionSpec b piece :=
  score_position_eq_spec b piece

/-- Window evaluation never decreases when one empty cell of the window is
    filled with the scored piece (checked over all cell combinations). -/
theorem evaluation_mono_window : ∀ p a a' b b' c c' d d' : Cell,
    (p = PLAYER ∨ p = AI) → CellRel p a a' → CellRel p b b' → CellRel p c c' →
    CellRel p d d' → evaluation [a, b, c, d] p ≤ evaluation [a', b', c', d'] p := by
  decide

/-- Every window of the specification has exactly four cells. -/
theorem specWindows_length : ∀ w ∈ specWindows, w.length = 4 := by decide

/-- Every window coordinate lies on the 6x7 board. -/
theorem specWindows_bounds : ∀ w ∈ specWindows, ∀ q ∈ w, q.1 < 6 ∧ q.2 < 7 := by
  decide

/-- C8: filling one empty center-column cell (row `i`, column 3) with
    `piece`, all other cells unchanged, strictly increases
    `scorePosition`: every window evaluation is monotone under the change
    and the center bonus adds 6. -/
theorem score_center_strict_mono (b b' : Board) (piece : Cell) (i : Nat)
    (hp : piece = PLAYER ∨ piece = AI) (hi : i < 6)
    (hold : getCell b i 3 = EMPTY) (hnew : getCell b' i 3 = piece)
    (hrest : ∀ r, r < 6 → ∀ c, c < 7 → ¬(r = i ∧ c = 3) →
      getCell b' r c = getCell b r c) :
    score_position b piece < score_position b' piece := by
  rw [score_position_eq_spec, score_position_eq_spec]
  have hcell : ∀ q : Nat × Nat, q.1 < 6 → q.2 < 7 →
      CellRel piece (getCell b q.1 q.2) (getCell b' q.1 q.2) := by
    intro q h1 h2
    by_cases hq : q = (i, 3)
    · subst hq
      exact Or.inr ⟨hold, hnew⟩
    · exact Or.inl (hrest q.1 h1 q.2 h2
        (fun hand => hq (Prod.ext_iff.mpr ⟨hand.1, hand.2⟩)))
  have hsum : (specWindows.map fun w =>
      evaluation (w.map fun q => getCell b q.1 q.2) piece).sum ≤
      (specWindows.map fun w =>
      evaluation (w.map fun q => getCell b' q.1 q.2) piece).sum := by
    apply List.sum_le_sum
    intro w hw
    have hlen : w.length = 4 := specWindows_length w hw
    have hbound := specWindows_bounds w hw
    rcases w with _ | ⟨q1, w⟩; · simp at hlen
    rcases w with _ | ⟨q2, w⟩; · simp at hlen
    rcases w with _ | ⟨q3, w⟩; · simp at hlen
    rcases w with _ | ⟨q4, w⟩; · simp at hlen
    have hw0 : w = [] := by
      rcases w with _ | ⟨q5, w⟩
      · rfl
      · exfalso; simp at hlen
    subst hw0
    simp only [List.map_cons, List.map_nil]
    exact evaluation_mono_window piece _ _ _ _ _ _ _ _ hp
      (hcell q1 (hbound q1 (by simp)).1 (hbound q1 (by simp)).2)
      (hcell q2 (hbound q2 (by simp)).1 (hbound q2 (by simp)).2)
      (hcell q3 (hbound q3 (by simp)).1 (hbound q3 (by simp)).2)
      (hcell q4 (hbound q4 (by simp)).1 (hbound q4 (by simp)).2)
  have hr : ∀ r, r < 6 → r ≠ i → getCell b' r 3 = getCell b r 3 := by
    intro r h1 h2
    exact hrest r h1 3 (by omega) (fun hand => h2 hand.1)
  have hcount : (((List.range 6).map fun r => getCell b' r 3).count piece) =
      (((List.range 6).map fun r => getCell b r 3).count piece) + 1 := by
    simp only [show List.range 6 = [0, 1, 2, 3, 4, 5] from rfl, List.map_cons,
      List.map_nil]
    interval_cases i <;>
      (first
        | rw [hnew, hr 1 (by omega) (by omega), hr 2 (by omega) (by omega),
            hr 3 (by omega) (by omega), hr 4 (by omega) (by omega),
            hr 5 (by omega) (by omega), hold]
        | rw [hnew, hr 0 (by omega) (by omega), hr 2 (by omega) (by omega),
            hr 3 (by omega) (by omega), hr 4 (by omega) (by omega),
            hr 5 (by omega) (by omega), hold]
        | rw [hnew, hr 0 (by omega) (by omega), hr 1 (by omega) (by omega),
            hr 3 (by omega) (by omega), hr 4 (by omega) (by omega),
            hr 5 (by omega) (by omega), hold]
        | rw [hnew, hr 0 (by omega) (by omega), hr 1 (by omega) (by omega),
            hr 2 (by omega) (by omega), hr 4 (by omega) (by omega),
            hr 5 (by omega) (by omega), hold]
        | rw [hnew, hr 0 (by omega) (by omega), hr 1 (by omega) (by omega),
            hr 2 (by omega) (by omega), hr 3 (by omega) (by omega),
            hr 5 (by omega) (by omega), hold]
        | rw [hnew, hr 0 (by omega) (by omega), hr 1 (by omega) (by omega),
            hr 2 (by omega) (by omega), hr 3 (by omega) (by omega),
            hr 4 (by omega) (by omega), hold]) <;>
      rcases hp with rfl | rfl <;>
      simp [List.count_cons, EMPTY, PLAYER, AI] <;> omega
  simp only [scorePositionSpec]
  omega

/-- Witness for C8: adding an AI piece at the bottom of the center column
    of the empty board strictly increases its score (0 to 6). -/
theorem score_center_strict_mono_witness :
    getCell emptyBoard 5 3 = EMPTY ∧
    getCell (set_piece emptyBoard 5 3 AI) 5 3 = AI ∧
    score_position emptyBoard AI < score_position (set_piece emptyBoard 5 3 AI) AI :=
  ⟨by decide, by decide,
    score_center_strict_mono emptyBoard (set_piece emptyBoard 5 3 AI) AI 5
      (Or.inr rfl) (by decide) (by decide) (by decide) (by decide)⟩

/-! ## Rotation symmetry of four-in-a-row detection (C9) -/

/-- Reading a cell of the rotated board reads the mirrored cell. -/
theorem getCell_rotate180 (b : Board) (r c : Nat) (hr : r < 6) (hc : c < 7) :
    getCell (rotate180 b) r c = getCell b (5 - r) (6 - c) := by
  interval_cases r <;> interval_cases c <;> rfl

/-- The inverse reading direction of `getCell_rotate180`. -/
theorem getCell_rotate180' (b : Board) (r c : Nat) (hr : r < 6) (hc : c < 7) :
    getCell b r c = getCell (rotate180 b) (5 - r) (6 - c) := by
  rw [getCell_rotate180 b (5 - r) (6 - c) (by omega) (by omega),
    show 5 - (5 - r) = r from by omega, show 6 - (6 - c) = c from by omega]

/-- C9: `hasFour` is invariant under the 180-degree rotation of the
    board: each of the four scan families maps onto itself under the index
    reversal (r, c) to (5 - r, 6 - c). -/
theorem winning_move_rotate180 (b : Board) (p : Cell) :
    winning_move (rotate180 b) p = winning_move b p := by
  rw [Bool.eq_iff_iff]
  simp only [winning_move, Bool.or_eq_true, List.any_eq_true, List.all_eq_true,
    List.mem_range, List.mem_cons, List.not_mem_nil, or_false,
    decide_eq_true_eq]
  constructor
  · intro h
    rcases h with ((⟨c, hc, r, hr, hw⟩ | ⟨c, hc, r, hr, hw⟩) | ⟨c, hc, r, hr, hw⟩) |
      ⟨c, hc, r, hr3, hw⟩
    · left; left; left
      refine ⟨3 - c, by omega, 5 - r, by omega, ?_⟩
      intro i hi
      have h1 := hw (3 - i) (by omega)
      rw [getCell_rotate180 b r (c + (3 - i)) hr (by omega),
        show 6 - (c + (3 - i)) = 3 - c + i from by omega] at h1
      exact h1
    · left; left; right
      refine ⟨6 - c, by omega, 2 - r, by omega, ?_⟩
      intro i hi
      have h1 := hw (3 - i) (by omega)
      rw [getCell_rotate180 b (r + (3 - i)) c (by omega) hc,
        show 5 - (r + (3 - i)) = 2 - r + i from by omega] at h1
      exact h1
    · left; right
      refine ⟨3 - c, by omega, 2 - r, by omega, ?_⟩
      intro i hi
      have h1 := hw (3 - i) (by omega)
      rw [getCell_rotate180 b (r + (3 - i)) (c + (3 - i)) (by omega) (by omega),
        show 5 - (r + (3 - i)) = 2 - r + i from by omega,
        show 6 - (c + (3 - i)) = 3 - c + i from by omega] at h1
      exact h1
    · right
      have hr6 : 3 ≤ r ∧ r < 6 := by rcases hr3 with rfl | rfl | rfl <;> omega
      refine ⟨3 - c, by omega, 8 - r, by omega, ?_⟩
      intro i hi
      have h1 := hw (3 - i) (by omega)
      rw [getCell_rotate180 b (r - (3 - i)) (c + (3 - i)) (by omega) (by omega),
        show 5 - (r - (3 - i)) = 8 - r - i from by omega,
        show 6 - (c + (3 - i)) = 3 - c + i from by omega] at h1
      exact h1
  · intro h
    rcases h with ((⟨c, hc, r, hr, hw⟩ | ⟨c, hc, r, hr, hw⟩) | ⟨c, hc, r, hr, hw⟩) |
      ⟨c, hc, r, hr3, hw⟩
    · left; left; left
      refine ⟨3 - c, by omega, 5 - r, by omega, ?_⟩
      intro i hi
      have h1 := hw (3 - i) (by omega)
      rw [getCell_rotate180' b r (c + (3 - i)) hr (by omega),
        show 6 - (c + (3 - i)) = 3 - c + i from by omega] at h1
      exact h1
    · left; left; right
      refine ⟨6 - c, by omega, 2 - r, by omega, ?_⟩
      intro i hi
      have h1 := hw (3 - i) (by omega)
      rw [getCell_rotate180' b (r + (3 - i)) c (by omega) hc,
        show 5 - (r + (3 - i)) = 2 - r + i from by omega] at h1
      exact h1
    · left; right
      refine ⟨3 - c, by omega, 2 - r, by omega, ?_⟩
      intro i hi
      have h1 := hw (3 - i) (by omega)
      rw [getCell_rotate180' b (r + (3 - i)) (c + (3 - i)) (by omega) (by omega),
        show 5 - (r + (3 - i)) = 2 - r + i from by omega,
        show 6 - (c + (3 - i)) = 3 - c + i from by omega] at h1
      exact h1
    · right
      have hr6 : 3 ≤ r ∧ r < 6 := by rcases hr3 with rfl | rfl | rfl <;> omega
      refine ⟨3 - c, by omega, 8 - r, by omega, ?_⟩
      intro i hi
      have h1 := hw (3 - i) (by omega)
      rw [getCell_rotate180' b (r - (3 - i)) (c + (3 - i)) (by omega) (by omega),
        show 5 - (r - (3 - i)) = 8 - r - i from by omega,
        show 6 - (c + (3 - i)) = 3 - c + i from by omega] at h1
      exact h1

/-! ## The search never mutates pre-existing boards (C7) -/

/-- Setting one heap slot leaves every other slot unchanged. -/
theorem getD_set_ne' {α : Type} (d : α) : ∀ (l : List α) (i j : Nat) (x : α),
    j ≠ i → (l.set i x).getD j d = l.getD j d := by
  intro l
  induction l with
  | nil => intro i j x h; rfl
  | cons a t ih =>
    intro i j x h
    cases i with
    | zero =>
      cases j with
      | zero => exact absurd rfl h
      | succ j => rfl
    | succ i =>
      cases j with
      | zero => rfl
      | succ j => exact ih i j x (by omega)

/-- Heap extension is reflexive. -/
theorem HExt_refl (h : Heap) : HExt h h := ⟨le_refl _, fun _ _ => rfl⟩

/-- Heap extension is transitive. -/
theorem HExt_trans {h1 h2 h3 : Heap} (a : HExt h1 h2) (b : HExt h2 h3) :
    HExt h1 h3 :=
  ⟨le_trans a.1 b.1, fun j hj => (b.2 j (lt_of_lt_of_le hj a.1)).trans (a.2 j hj)⟩

/-- Allocating a copy and writing into the fresh slot extends the heap. -/
theorem HExt_alloc_write (h : Heap) (x : Board) (row col : Nat) (p : Cell) :
    HExt h (set_pieceH (h ++ [x]) h.length row col p) := by
  constructor
  · simp [set_pieceH]
  · intro j hj
    unfold set_pieceH
    rw [getD_set_ne' [] _ _ _ _ (by omega)]
    exact List.getD_append _ _ _ _ hj

/-- The maximizing loop only extends the heap. -/
theorem maxLoopH_ext
    (recCall : Nat → Score → Score → Table → Heap → ((Option Nat × Score) × Table × Heap))
    (hrec : ∀ bid a' b'' tt h, HExt h (recCall bid a' b'' tt h).2.2) :
    ∀ (cols : List Nat) (bid : Nat) (beta : Score) (col : Nat)
      (value alpha : Score) (tt : Table) (h : Heap),
      HExt h (maxLoopH recCall bid beta cols col value alpha tt h).2.2 := by
  intro cols
  induction cols with
  | nil => intro bid beta col value alpha tt h; exact HExt_refl h
  | cons c rest ih =>
    intro bid beta col value alpha tt h
    simp only [maxLoopH]
    split <;> split <;>
      first
        | exact HExt_trans (HExt_alloc_write h (h.getD bid []) _ c AI)
            (hrec _ _ _ _ _)
        | exact HExt_trans (HExt_trans (HExt_alloc_write h (h.getD bid []) _ c AI)
            (hrec _ _ _ _ _)) (ih _ _ _ _ _ _ _)

/-- The minimizing loop only extends the heap. -/
theorem minLoopH_ext
    (recCall : Nat → Score → Score → Table → Heap → ((Option Nat × Score) × Table × Heap))
    (hrec : ∀ bid a' b'' tt h, HExt h (recCall bid a' b'' tt h).2.2) :
    ∀ (cols : List Nat) (bid : Nat) (alpha : Score) (col : Nat)
      (value beta : Score) (tt : Table) (h : Heap),
      HExt h (minLoopH recCall bid alpha cols col value beta tt h).2.2 := by
  intro cols
  induction cols with
  | nil => intro bid alpha col value beta tt h; exact HExt_refl h
  | cons c rest ih =>
    intro bid alpha col value beta tt h
    simp only [minLoopH]
    split <;> split <;>
      first
        | exact HExt_trans (HExt_alloc_write h (h.getD bid []) _ c PLAYER)
            (hrec _ _ _ _ _)
        | exact HExt_trans (HExt_trans (HExt_alloc_write h (h.getD bid []) _ c PLAYER)
            (hrec _ _ _ _ _)) (ih _ _ _ _ _ _ _)

/-- The heap-level search only extends the heap: every pre-existing
    board, in particular every ancestor's board, is left unchanged. -/
theorem minimaxH_ext (choice : List Nat → Nat) :
    ∀ (d bid : Nat) (alpha beta : Score) (m : Bool) (tt : Table) (h : Heap),
      HExt h (minimaxH choice d bid alpha beta m tt h).2.2 := by
  intro d
  induction d with
  | zero =>
    intro bid alpha beta m tt h
    simp only [minimaxH]
    cases hl : lookupTT tt (h.getD bid []) 0 with
    | some e => exact HExt_refl h
    | none => split_ifs <;> exact HExt_refl h
  | succ n ih =>
    intro bid alpha beta m tt h
    simp only [minimaxH]
    cases hl : lookupTT tt (h.getD bid []) (n + 1) with
    | some e => exact HExt_refl h
    | none =>
      split_ifs with ht hA hP hm
      · exact HExt_refl h
      · exact HExt_refl h
      · exact HExt_refl h
      · exact maxLoopH_ext _ (fun bid' a' b'' tt' h' => ih bid' a' b'' false tt' h')
          _ _ _ _ _ _ _ _
      · exact minLoopH_ext _ (fun bid' a' b'' tt' h' => ih bid' a' b'' true tt' h')
          _ _ _ _ _ _ _ _

/-- C7: the board passed into `search` (by reference, at the heap level)
    is unchanged when the call returns: each recursive ply places its
    piece only on a freshly allocated copy, never on a pre-existing
    board of the caller. -/
theorem search_never_mutates_boards (choice : List Nat → Nat) (d bid : Nat)
    (alpha beta : Score) (m : Bool) (tt : Table) (h : Heap) (j : Nat)
    (hj : j < h.length) :
    ((minimaxH choice d bid alpha beta m tt h).2.2).getD j [] = h.getD j [] :=
  (minimaxH_ext choice d bid alpha beta m tt h).2 j hj

/-- Witness for C7: searching from the board referenced by slot 0 leaves
    slot 0 holding the original board. -/
theorem search_never_mutates_boards_witness :
    0 < ([exBoardC6] : Heap).length ∧
    ((minimaxH chooseFirst 1 0 Score.negInf Score.posInf true []
      [exBoardC6]).2.2).getD 0 [] = exBoardC6 :=
  ⟨by decide,
    (search_never_mutates_boards chooseFirst 1 0 Score.negInf Score.posInf true []
      [exBoardC6] 0 (by decide)).trans rfl⟩


/-! ## Pruning plus memoization can change the returned score (C1) -/

/-- C1 is refuted by the code: on `exBoardC1` at depth 5, `search` with the
    cache initially empty returns score 22 while the plain unpruned,
    uncached minimax over the same board, depth and side returns +inf (a
    forced AI win).  A table entry stored after an `alpha >= beta` cutoff
    holds only a bound, and the key (board, depth) ignores the window in
    which it was computed, so its later reuse as an exact value changes the
    root score. -/
theorem search_table_score_divergence :
    (minimax chooseFirst 5 exBoardC1 Score.negInf Score.posInf true []).1.2 =
      Score.val 22 ∧
    plainMinimax 5 exBoardC1 true = Score.posInf ∧
    (minimax chooseFirst 5 exBoardC1 Score.negInf Score.posInf true []).1.2 ≠
      plainMinimax 5 exBoardC1 true := by
  have h1 : (minimax chooseFirst 5 exBoardC1 Score.negInf Score.posInf true
      []).1.2 = Score.val 22 := by decide
  have h2 : plainMinimax 5 exBoardC1 true = Score.posInf := by decide
  refine ⟨h1, h2, ?_⟩
  rw [h1, h2]
  decide

end Connect4
